import Mathlib

/-!
Verification development for the magnetgeo geometric data model.

The Python sources are shallowly embedded: a class becomes a Lean
structure, a method a Lean function.  Python floats are modelled as
rationals (`ℚ`) so that all arithmetic is exact and decidable; Python ints
are modelled as `ℤ`.  Methods that can raise return `Except String`; the
generic tag-driven decoder is modelled over untyped association lists.

Only methods whose bodies are self-contained computations are embedded:
the serialization engine (`unserialize_object`), `ModelAxi.compact`,
`Supra.check_dimensions` and the `Shape2D` geometry, together with the
plain data fields and getters they read.  The package's base-class
machinery is deliberately not modelled: base/component_base.py references
`SerializableBase`, `GeometryMixin` and `ABC` without importing them, so
it raises NameError, and the component modules whose guarded imports pull
it in fail to load — their constructor/validator paths correspond to no
reachable program state and are therefore out of scope here.
-/

set_option maxHeartbeats 1000000

/-- Python's `abs` on rationals, written so that kernel reduction works. -/
def ratAbs (q : ℚ) : ℚ := if q < 0 then -q else q

/-! ## components/hts/tape.py -/

/-- Embeds the `Tape` class: superconductor width `w`, height `h` and
insulation thickness `e`. -/
structure Tape where
  w : ℚ
  h : ℚ
  e : ℚ
  deriving DecidableEq, Repr

/-- Embeds `Tape.getW`: total width, superconductor plus insulation. -/
def Tape.getW (t : Tape) : ℚ := t.w + t.e

/-- Embeds `Tape.getH`. -/
def Tape.getH (t : Tape) : ℚ := t.h

/-! ## components/hts/isolation.py -/

/-- Embeds the `Isolation` class: inner radius `r0` plus per-layer widths
and heights. -/
structure Isolation where
  r0 : ℚ
  w : List ℚ
  h : List ℚ
  deriving DecidableEq, Repr

/-- Embeds `Isolation.getH`: total height is the sum of the layer heights. -/
def Isolation.getH (i : Isolation) : ℚ := i.h.sum

/-! ## components/hts/pancake.py -/

/-- Embeds the `Pancake` class: inner radius `r0`, mandrel radius
`mandrin`, owned `tape` and turn count `n`. -/
structure Pancake where
  r0 : ℚ
  mandrin : ℚ
  tape : Tape
  n : ℤ
  deriving DecidableEq, Repr

/-- Embeds `Pancake.getR1`: outer radius `r0 + n * tape.getW()` when the
turn count is positive (a Tape instance is always truthy), else `r0`. -/
def Pancake.getR1 (p : Pancake) : ℚ :=
  if 0 < p.n then p.r0 + (p.n : ℚ) * p.tape.getW else p.r0

/-- Embeds `Pancake.getR0`. -/
def Pancake.getR0 (p : Pancake) : ℚ := p.r0

/-- Embeds `Pancake.getH`: the pancake height is the tape height. -/
def Pancake.getH (p : Pancake) : ℚ := p.tape.getH

/-! ## components/hts/dblpancake.py -/

/-- Embeds the `DblPancake` class: a centre position `z0`, one pancake
geometry shared by both physical pancakes, and the isolation between
them. -/
structure DblPancake where
  z0 : ℚ
  pancake : Pancake
  isolation : Isolation
  deriving DecidableEq, Repr

/-- Embeds `DblPancake.getH`: twice the pancake height plus the inner
isolation height. -/
def DblPancake.getH (dp : DblPancake) : ℚ :=
  2 * dp.pancake.getH + dp.isolation.getH

/-- Embeds `DblPancake.getR0`. -/
def DblPancake.getR0 (dp : DblPancake) : ℚ := dp.pancake.getR0

/-- Embeds `DblPancake.getR1`. -/
def DblPancake.getR1 (dp : DblPancake) : ℚ := dp.pancake.getR1

/-- Embeds `DblPancake.getZ1`: bottom position. -/
def DblPancake.getZ1 (dp : DblPancake) : ℚ := dp.z0 - dp.getH / 2

/-- Embeds `DblPancake.getZ2`: top position. -/
def DblPancake.getZ2 (dp : DblPancake) : ℚ := dp.z0 + dp.getH / 2

/-- Embeds `DblPancake.setZ0` (functionally: a copy with the new centre). -/
def DblPancake.setZ0 (dp : DblPancake) (z0 : ℚ) : DblPancake := { dp with z0 := z0 }

/-! ## components/hts/structure.py (HTSinsert) -/

/-- Embeds the `HTSinsert` class: the full double-pancake stack with its
derived bounds and the list of isolations interleaved between consecutive
double pancakes. -/
structure HTSinsert where
  name : String
  z0 : ℚ
  h : ℚ
  r0 : ℚ
  r1 : ℚ
  z1 : ℚ
  n : ℤ
  dblpancakes : List DblPancake
  isolations : List Isolation
  deriving DecidableEq, Repr

/-- Embeds `HTSinsert.getR0`. -/
def HTSinsert.getR0 (s : HTSinsert) : ℚ := s.r0

/-- Embeds `HTSinsert.getR1`. -/
def HTSinsert.getR1 (s : HTSinsert) : ℚ := s.r1

/-- Embeds `HTSinsert.getZ0`. -/
def HTSinsert.getZ0 (s : HTSinsert) : ℚ := s.z0

/-- Embeds `HTSinsert.getH`. -/
def HTSinsert.getH (s : HTSinsert) : ℚ := s.h

/-- Embeds `HTSinsert.getNtapes`: each double pancake carries two
pancakes, so contributes twice its pancake's turn count. -/
def HTSinsert.getNtapes (s : HTSinsert) : List ℤ :=
  s.dblpancakes.map (fun dp => 2 * dp.pancake.n)

/-! ## components/support/modelaxi.py -/

/-- Embeds the `ModelAxi` class: parallel lists of turn counts and pitch
values per axial section. -/
structure ModelAxi where
  name : String
  h : ℚ
  turns : List ℚ
  pitch : List ℚ
  deriving DecidableEq, Repr

/-- Embeds `ModelAxi.get_total_turns`. -/
def ModelAxi.get_total_turns (m : ModelAxi) : ℚ := m.turns.sum

/-! ## components/magnet/supra.py -/

/-- Embeds the public fields of a `Supra`: bounds, fallback turn count
`n`, the path reference `struct` to the insert configuration, and the
detail level. -/
structure Supra where
  name : String
  r : List ℚ
  z : List ℚ
  n : ℤ
  struct : String
  detail : String
  deriving DecidableEq, Repr

/-! ## utils/geometry/shape2d.py -/

/-- Embeds the `Shape2D` class: a named polygon given by an ordered point
list. -/
structure Shape2D where
  name : String
  pts : List (ℚ × ℚ)
  deriving DecidableEq, Repr

/-- Embeds `Shape2D.validate`: non-blank name and at least three points
(the per-point format and numeric checks are subsumed by the Lean type,
and the float() conversion of each coordinate is the identity here). -/
def Shape2D.validate (s : Shape2D) : Except String Unit := do
  (if s.name.data.all (fun c => c.isWhitespace) then
    Except.error "name must be a non-empty string"
   else .ok ())
  (if s.pts.length < 3 then Except.error "Shape must have at least 3 points"
   else .ok ())

/-- Embeds `Shape2D.__init__` (`pts or []` is the identity on the list
argument used here). -/
def Shape2D.init (name : String) (pts : List (ℚ × ℚ)) : Except String Shape2D := do
  let s : Shape2D := ⟨name, pts⟩
  s.validate
  return s

/-- The signed shoelace sum of `Shape2D.get_area`: the loop
`for i in range(n): j = (i+1) % n` accumulating
`pts[i][0]*pts[j][1] - pts[j][0]*pts[i][1]`. -/
def shoelaceSum (pts : List (ℚ × ℚ)) : ℚ :=
  ((List.range pts.length).map (fun i =>
    (pts.getD i (0, 0)).1 * (pts.getD ((i + 1) % pts.length) (0, 0)).2
      - (pts.getD ((i + 1) % pts.length) (0, 0)).1 * (pts.getD i (0, 0)).2)).sum

/-- Embeds `Shape2D.get_area`: 0 for fewer than 3 points, else half the
absolute shoelace sum. -/
def Shape2D.get_area (s : Shape2D) : ℚ :=
  if s.pts.length < 3 then 0 else ratAbs (shoelaceSum s.pts) / 2

/-- Embeds `Shape2D.get_perimeter`: 0 for fewer than 2 points, else the
sum over `i` of the Euclidean length of the edge from `pts[i]` to
`pts[(i+1) % n]` (so the wrap-around edge is included). -/
noncomputable def Shape2D.get_perimeter (s : Shape2D) : ℝ :=
  if s.pts.length < 2 then 0 else
    ((List.range s.pts.length).map (fun i =>
      let p := s.pts.getD i (0, 0)
      let q := s.pts.getD ((i + 1) % s.pts.length) (0, 0)
      Real.sqrt (((q.1 : ℝ) - (p.1 : ℝ)) ^ 2 + ((q.2 : ℝ) - (p.2 : ℝ)) ^ 2))).sum

open Classical in
/-- Embeds `Shape2D.get_hydraulic_diameter`: 0 when the perimeter is 0,
else `4 * area / perimeter`. -/
noncomputable def Shape2D.get_hydraulic_diameter (s : Shape2D) : ℝ :=
  if s.get_perimeter = 0 then 0 else 4 * (s.get_area : ℝ) / s.get_perimeter

/-- Spec-side shoelace area, written as the spec describes it: pair every
point with its successor around the closed loop (`rotate 1` brings the
first point around as the successor of the last, which is exactly the
wrap-around edge) and take half the absolute sum of the cross products. -/
def specShoelaceArea (pts : List (ℚ × ℚ)) : ℚ :=
  |((pts.zip (pts.rotate 1)).map (fun pq => pq.1.1 * pq.2.2 - pq.2.1 * pq.1.2)).sum| / 2

/-- Spec-side perimeter: the sum of the Euclidean lengths of the edges of
the closed loop, wrap-around edge included. -/
noncomputable def specPerimeter (pts : List (ℚ × ℚ)) : ℝ :=
  ((pts.zip (pts.rotate 1)).map (fun pq =>
    Real.sqrt (((pq.2.1 : ℝ) - (pq.1.1 : ℝ)) ^ 2 + ((pq.2.2 : ℝ) - (pq.1.2 : ℝ)) ^ 2))).sum

/-! ## Supra.check_dimensions (components/magnet/supra.py) -/

/-- List indexing as Python performs it: `l[i]` raises IndexError when
the index is out of range. -/
def pyIndex {α : Type} (l : List α) (i : Nat) : Except String α :=
  match l.get? i with
  | some v => .ok v
  | none => .error "IndexError: list index out of range"

/-- Embeds `Supra.check_dimensions` with the structure already resolved
(the method first falls back to the cached `magnet_struct`; resolution is
file I/O and is outside this model, so the resolved insert is an explicit
argument).  An `HTSinsert` instance is always truthy, so the early return
fires only for an empty `struct` path.  Each stored value is overwritten
exactly when it differs (exact inequality) from the derived one; the
method assigns only to `self` attributes, so the insert is returned
untouched.  The `changed` flag only drives logging and is dropped. -/
def Supra.check_dimensions (s : Supra) (magnet : HTSinsert) :
    Except String (Supra × HTSinsert) := do
  if s.struct = "" then return (s, magnet)
  let struct_r0 := magnet.getR0
  let struct_r1 := magnet.getR1
  let cur_r0 ← pyIndex s.r 0
  let r := if cur_r0 ≠ struct_r0 then s.r.set 0 struct_r0 else s.r
  let cur_r1 ← pyIndex r 1
  let r := if cur_r1 ≠ struct_r1 then r.set 1 struct_r1 else r
  let struct_z0 := magnet.getZ0 - magnet.getH / 2
  let struct_z1 := magnet.getZ0 + magnet.getH / 2
  let cur_z0 ← pyIndex s.z 0
  let z := if cur_z0 ≠ struct_z0 then s.z.set 0 struct_z0 else s.z
  let cur_z1 ← pyIndex z 1
  let z := if cur_z1 ≠ struct_z1 then z.set 1 struct_z1 else z
  let struct_n := magnet.getNtapes.sum
  let n := if s.n ≠ struct_n then struct_n else s.n
  return ({ s with r := r, z := z, n := n }, magnet)

/-! ## ModelAxi.compact (components/support/modelaxi.py) -/

/-- Embeds the inner helper `indices` of `ModelAxi.compact`.  The Python
comprehension `[i for i, x in enumerate(lst) if abs(1 - item / x) <= tol
if x != 0]` evaluates the tolerance test before the zero guard, so a zero
entry raises ZeroDivisionError; otherwise it keeps the positions whose
value matches `item` within relative tolerance. -/
def indicesAux (tol item : ℚ) : List ℚ → Nat → Except String (List Nat)
  | [], _ => .ok []
  | x :: xs, i =>
    if x = 0 then .error "ZeroDivisionError: division by zero"
    else do
      let rest ← indicesAux tol item xs (i + 1)
      return (if ratAbs (1 - item / x) ≤ tol then i :: rest else rest)

/-- The helper `indices` starting from position 0. -/
def indices (tol : ℚ) (lst : List ℚ) (item : ℚ) : Except String (List Nat) :=
  indicesAux tol item lst 0

/-- First-occurrence deduplication, modelling the iteration over
`set(pitch_list)`.  CPython's set iteration order is unspecified; the
claims proved below about `compact` are insensitive to this order (for
the inputs of the concrete theorems every order yields the same output),
and first-occurrence order is the deterministic representative used
here. -/
def dedupFirst (l : List ℚ) : List ℚ :=
  l.foldl (fun acc x => if x ∈ acc then acc else acc ++ [x]) []

/-- Embeds the `duplicates` dictionary of `ModelAxi.compact`: for every
distinct non-zero pitch value, the positions matching it within
tolerance, kept only when there are at least two of them. -/
def computeDuplicates (tol : ℚ) (pitch : List ℚ) : Except String (List (ℚ × List Nat)) :=
  (dedupFirst pitch).foldlM (fun acc v =>
    if v = 0 then pure acc
    else do
      let idxs ← indices tol pitch v
      pure (if idxs.length > 1 then acc ++ [(v, idxs)] else acc)) []

/-- Splits an index list into maximal runs of consecutive integers,
modelling the `current_group` loop of `ModelAxi.compact` (a new group
starts whenever the gap to the previous index is not exactly 1). -/
def splitRuns : List Nat → List (List Nat)
  | [] => []
  | [i] => [[i]]
  | i :: j :: rest =>
    match splitRuns (j :: rest) with
    | [] => [[i]]
    | g :: gs => if j = i + 1 then (i :: g) :: gs else [i] :: g :: gs

/-- Inserts a keyed group into the `sum_index` dictionary: an existing key
is overwritten in place (Python dicts keep the original position on
update), a new key is appended. -/
def insertReplace (m : List (Nat × List Nat)) (k : Nat) (v : List Nat) :
    List (Nat × List Nat) :=
  if m.any (fun kv => kv.1 = k) then m.map (fun kv => if kv.1 = k then (k, v) else kv)
  else m ++ [(k, v)]

/-- Embeds the `sum_index` dictionary of `ModelAxi.compact`: for every
duplicate pitch value, its positions are split into consecutive runs and
each run is stored under its first index. -/
def computeSumIndex (dups : List (ℚ × List Nat)) : List (Nat × List Nat) :=
  dups.foldl (fun m vd =>
    (splitRuns vd.2).foldl (fun m g =>
      match g with
      | [] => m
      | k :: _ => insertReplace m k g) m) []

/-- Embeds the turn-accumulation loop of `ModelAxi.compact`:
`new_turns[group_start] += self.turns[idx]` for every non-first index of
every group, reading the original turn values.  (In the source all these
indices lie within the list; out-of-range defaults never fire for a
validated model.) -/
def applyGroupAdds (turns : List ℚ) (sumIndex : List (Nat × List Nat)) : List ℚ :=
  sumIndex.foldl (fun cur kg =>
    kg.2.tail.foldl (fun cur idx => cur.set kg.1 (cur.getD kg.1 0 + turns.getD idx 0)) cur)
    turns

/-- Embeds `ModelAxi.compact`: empty inputs return empty lists; otherwise
duplicate pitch positions are grouped into consecutive runs, every
non-first member of a run is marked for removal, its turns are added to
the run's first member, and both lists are filtered by the removal set. -/
def ModelAxi.compact (m : ModelAxi) (tol : ℚ) : Except String (List ℚ × List ℚ) :=
  if m.turns = [] ∨ m.pitch = [] then .ok ([], [])
  else do
    let dups ← computeDuplicates tol m.pitch
    let sumIndex := computeSumIndex dups
    let removeIds := sumIndex.foldl (fun acc kg => acc ++ kg.2.tail) []
    let newPitch := (m.pitch.enum.filter (fun p => ¬ p.1 ∈ removeIds)).map (fun p => p.2)
    let newTurns0 := applyGroupAdds m.turns sumIndex
    let newTurns := (newTurns0.enum.filter (fun p => ¬ p.1 ∈ removeIds)).map (fun p => p.2)
    return (newTurns, newPitch)

/-- The default tolerance `1.0e-6` of `ModelAxi.compact`. -/
def defaultCompactTol : ℚ := 1 / 1000000

/-! ## deserialize.py (generic tag-driven decoding) -/

/-- Untyped Python/JSON values as they reach `unserialize_object`. -/
inductive PyVal where
  | pynone
  | pybool (b : Bool)
  | pyint (n : ℤ)
  | pyfloat (q : ℚ)
  | pystr (s : String)
  | pylist (l : List PyVal)
  | pydict (d : List (String × PyVal))

/-- Python truthiness of a value. -/
def PyVal.truthy : PyVal → Bool
  | .pynone => false
  | .pybool b => b
  | .pyint n => n != 0
  | .pyfloat q => q != 0
  | .pystr s => s != ""
  | .pylist l => !l.isEmpty
  | .pydict d => !d.isEmpty

/-- Whether a value may be used as a dictionary key (lists and dicts are
unhashable in Python and make `classes.get(clsname)` raise TypeError). -/
def PyVal.hashable : PyVal → Bool
  | .pylist _ => false
  | .pydict _ => false
  | _ => true

/-- First-occurrence key lookup in an association list (a Python dict has
no duplicate keys, so this is plain dict lookup). -/
def lookupKey : List (String × PyVal) → String → Option PyVal
  | [], _ => none
  | kv :: rest, k => if kv.1 = k then some kv.2 else lookupKey rest k

/-- Removal of the first occurrence of a key, modelling `d.pop(k)`. -/
def eraseKey : List (String × PyVal) → String → List (String × PyVal)
  | [], _ => []
  | kv :: rest, k => if kv.1 = k then rest else kv :: eraseKey rest k

/-- Embeds `unserialize_object` from deserialize.py, parametrised by the
global class registry (a lookup from registered name to the class's
reconstruction function, itself fallible): the discriminant key is popped;
a missing or falsy discriminant returns the mapping as mutated by the pop;
an unhashable discriminant makes the registry lookup raise TypeError; an
unknown discriminant restores the key and returns the mapping; a known
discriminant dispatches, and any reconstruction failure falls back to
restoring the key and returning the mapping. -/
def unserialize_object {α : Type}
    (reg : String → Option (List (String × PyVal) → Except String α))
    (d : List (String × PyVal)) : Except String (List (String × PyVal) ⊕ α) :=
  match lookupKey d "__classname__" with
  | none => .ok (.inl d)
  | some v =>
    let rest := eraseKey d "__classname__"
    if v.truthy then
      if !v.hashable then .error "TypeError: unhashable type"
      else
        match v with
        | .pystr s =>
          match reg s with
          | none => .ok (.inl (rest ++ [("__classname__", v)]))
          | some fd =>
            match fd rest with
            | .ok obj => .ok (.inr obj)
            | .error _ => .ok (.inl (rest ++ [("__classname__", v)]))
        | _ => .ok (.inl (rest ++ [("__classname__", v)]))
    else .ok (.inl rest)

/-! ## Concrete instances used by the witnesses and counterexamples -/

/-- A tape with integral dimensions: 4 mm superconductor, 1 mm height,
2 mm insulation. -/
def tapeEx : Tape := ⟨4, 1, 2⟩

/-- A one-layer isolation at radius 50 with height 3 mm. -/
def isoEx : Isolation := ⟨50, [1], [3]⟩

/-- A pancake of 10 turns of `tapeEx` at inner radius 50. -/
def pancakeEx : Pancake := ⟨50, 45, tapeEx, 10⟩

/-- A double pancake of `pancakeEx` around `isoEx`. -/
def dblpancakeEx : DblPancake := ⟨0, pancakeEx, isoEx⟩

/-- A small insert holding `dblpancakeEx`. -/
def insertEx : HTSinsert := ⟨"HTS", 0, 5, 50, 110, -2, 3, [dblpancakeEx], []⟩

/-- An axisymmetric model with three sections. -/
def modelaxiEx : ModelAxi := ⟨"axi", 100, [2, 3, 4], [1, 1, 2]⟩

/-- A Supra with a structure path and pancake-level detail. -/
def supraEx : Supra := ⟨"S", [0, 100], [-50, 50], 120, "HTS.json", "pancake"⟩

/-- A triangle. -/
def shape2dEx : Shape2D := ⟨"tri", [(0, 0), (1, 0), (0, 1)]⟩

/-- A mapping tagged with a discriminant naming no registered class. -/
def futureDict : List (String × PyVal) :=
  [("__classname__", .pystr "FutureType"), ("x", .pyint 1)]

/-- A registry with no registered classes (the registry contents depend on
which imports succeeded; "FutureType" is registered under none of them). -/
def emptyReg : String → Option (List (String × PyVal) → Except String PyVal) :=
  fun _ => none

/-- A plain mapping without the discriminant key. -/
def plainDict : List (String × PyVal) := [("x", .pyint 1), ("y", .pystr "abc")]

/-! ## General lemmas about the Except monad and association lists -/

theorem except_bind_ok {ε α β : Type} (x : Except ε α) (f : α → Except ε β) (b : β) :
    (x >>= f) = .ok b ↔ ∃ a, x = .ok a ∧ f a = .ok b := by
  cases x <;> simp [Bind.bind, Except.bind]

theorem except_bind_err_of_all {ε α β : Type} (x : Except ε α) (f : α → Except ε β)
    (h : ∀ a, ∃ m, f a = .error m) : ∃ m, (x >>= f) = .error m := by
  cases x with
  | error e => exact ⟨e, by simp [Bind.bind, Except.bind]⟩
  | ok a => exact (h a).imp (fun m hm => by simpa [Bind.bind, Except.bind] using hm)

theorem filter_eraseKey (d : List (String × PyVal)) (k : String) :
    (eraseKey d k).filter (fun kv => kv.1 != k) = d.filter (fun kv => kv.1 != k) := by
  induction d with
  | nil => rfl
  | cons kv rest ih =>
    by_cases h : kv.1 = k <;> simp [eraseKey, h, ih]

/-! ## Claim theorems: serialization engine C2, C9 and compaction C6 -/

/-- C2: for every mapping carrying the "__classname__" discriminant whose
string value names no registered class, `unserialize_object` never raises
and returns the mapping itself with its non-discriminant keys and values
unchanged. -/
theorem C2_unknown_class_preserves_mapping {α : Type}
    (reg : String → Option (List (String × PyVal) → Except String α))
    (d : List (String × PyVal)) (s : String)
    (hkey : lookupKey d "__classname__" = some (.pystr s))
    (hreg : reg s = none) :
    ∃ d2, unserialize_object reg d = .ok (.inl d2) ∧
      d2.filter (fun kv => kv.1 != "__classname__") =
        d.filter (fun kv => kv.1 != "__classname__") := by
  unfold unserialize_object
  rw [hkey]
  by_cases hs : s = ""
  · subst hs
    exact ⟨eraseKey d "__classname__", by simp [PyVal.truthy], filter_eraseKey d _⟩
  · refine ⟨eraseKey d "__classname__" ++ [("__classname__", .pystr s)], ?_, ?_⟩
    · simp [PyVal.truthy, PyVal.hashable, hs, hreg]
    · simp [List.filter_append, filter_eraseKey d _]

/-- C9: a mapping without the reserved "__classname__" key passes through
`unserialize_object` unchanged and without raising. -/
theorem C9_untagged_mapping_passthrough {α : Type}
    (reg : String → Option (List (String × PyVal) → Except String α))
    (d : List (String × PyVal))
    (hkey : lookupKey d "__classname__" = none) :
    unserialize_object reg d = .ok (.inl d) := by
  unfold unserialize_object
  rw [hkey]

/-- C9 witness: the concrete untagged mapping `plainDict` decodes to
itself under a registry with no entries. -/
theorem C9_untagged_mapping_passthrough_witness :
    lookupKey plainDict "__classname__" = none ∧
      unserialize_object emptyReg plainDict = .ok (.inl plainDict) :=
  ⟨rfl, C9_untagged_mapping_passthrough emptyReg plainDict rfl⟩

/-- C2 witness: decoding the mapping with discriminant "FutureType" under
a registry that does not know it returns the mapping with "x" preserved. -/
theorem C2_unknown_class_preserves_mapping_witness :
    lookupKey futureDict "__classname__" = some (.pystr "FutureType") ∧
    emptyReg "FutureType" = none ∧
    ∃ d2, unserialize_object emptyReg futureDict = .ok (.inl d2) ∧
      d2.filter (fun kv => kv.1 != "__classname__") =
        futureDict.filter (fun kv => kv.1 != "__classname__") :=
  ⟨rfl, rfl,
   C2_unknown_class_preserves_mapping emptyReg futureDict "FutureType" rfl rfl⟩

/-- C6: compacting a ModelAxi with turns [2, 3, 4] and pitch [1, 1, 2] at
the default tolerance merges the first two sections into turns [5, 4] and
pitch [1, 2]. -/
theorem C6_compact_merges_first_two_sections :
    ModelAxi.compact ⟨"test", 0, [2, 3, 4], [1, 1, 2]⟩ defaultCompactTol =
      .ok ([5, 4], [1, 2]) := by
  norm_num [ModelAxi.compact, computeDuplicates, dedupFirst, indices, indicesAux,
    computeSumIndex, splitRuns, insertReplace, applyGroupAdds, defaultCompactTol, ratAbs,
    Bind.bind, Except.bind, pure, Except.pure, List.foldlM, List.enum, List.enumFrom]
  rintro (h | h) <;> exact absurd h (by simp)

/-! ## Claim theorem: one-way dimension synchronization C7 -/

theorem list_set_self {α : Type} (l : List α) (k : Nat) (v : α)
    (h : l.get? k = some v) : l.set k v = l := by
  induction l generalizing k with
  | nil => rfl
  | cons x xs ih =>
    cases k with
    | zero => simp_all
    | succ k => simp_all [List.set]

/-- C7: when `check_dimensions` runs on a Supra with a non-empty struct
path and a resolved insert, the Supra's stored radial bounds, axial
bounds (centre minus and plus half the height) and turn count are
overwritten with the insert's derived values while name, struct and
detail are untouched, and the insert itself is returned unmodified. -/
theorem C7_check_dimensions_one_way_sync (s : Supra) (m : HTSinsert)
    (hstruct : s.struct ≠ "") (hr : 2 ≤ s.r.length) (hz : 2 ≤ s.z.length) :
    s.check_dimensions m =
      .ok ({ s with
              r := (s.r.set 0 m.getR0).set 1 m.getR1,
              z := (s.z.set 0 (m.getZ0 - m.getH / 2)).set 1 (m.getZ0 + m.getH / 2),
              n := m.getNtapes.sum }, m) := by
  obtain ⟨nm, r, z, n, st, dt⟩ := s
  simp only at hstruct hr hz ⊢
  rcases r with _ | ⟨a, _ | ⟨b, rt⟩⟩ <;> simp at hr
  rcases z with _ | ⟨c, _ | ⟨d, zt⟩⟩ <;> simp at hz
  simp only [Supra.check_dimensions, hstruct, if_neg, pyIndex]
  by_cases h1 : a = m.getR0 <;> by_cases h2 : b = m.getR1 <;>
    by_cases h3 : c = m.getZ0 - m.getH / 2 <;> by_cases h4 : d = m.getZ0 + m.getH / 2 <;>
    by_cases h5 : n = m.getNtapes.sum <;>
    simp_all [Supra.check_dimensions, pyIndex, Bind.bind, Except.bind, List.set,
      pure, Except.pure]

/-- C7 witness: synchronizing `supraEx` against `insertEx`. -/
theorem C7_check_dimensions_one_way_sync_witness :
    supraEx.struct ≠ "" ∧ 2 ≤ supraEx.r.length ∧ 2 ≤ supraEx.z.length ∧
    supraEx.check_dimensions insertEx =
      .ok ({ supraEx with
              r := (supraEx.r.set 0 insertEx.getR0).set 1 insertEx.getR1,
              z := (supraEx.z.set 0 (insertEx.getZ0 - insertEx.getH / 2)).set 1
                     (insertEx.getZ0 + insertEx.getH / 2),
              n := insertEx.getNtapes.sum }, insertEx) :=
  ⟨by decide, by decide, by decide,
   C7_check_dimensions_one_way_sync supraEx insertEx (by decide) (by decide) (by decide)⟩

/-! ## Shape2D geometry (claim C8) -/

theorem zip_rotate_eq_range {β : Type} (l : List (ℚ × ℚ)) (f : (ℚ × ℚ) → (ℚ × ℚ) → β) :
    (l.zip (l.rotate 1)).map (fun pq => f pq.1 pq.2) =
    (List.range l.length).map (fun i =>
      f (l.getD i (0, 0)) (l.getD ((i + 1) % l.length) (0, 0))) := by
  apply List.ext_getElem
  · simp
  · intro i h1 h2
    have hlen : i < l.length := by simpa using h2
    have hmod : (i + 1) % l.length < l.length :=
      Nat.mod_lt _ (Nat.pos_of_ne_zero (fun hz => by simp [hz] at hlen))
    simp only [List.getElem_map, List.getElem_zip, List.getElem_range,
      List.getElem_rotate, List.getD_eq_getElem _ _ hlen,
      List.getD_eq_getElem _ _ hmod]

theorem shoelaceSum_eq_spec (pts : List (ℚ × ℚ)) :
    shoelaceSum pts =
      ((pts.zip (pts.rotate 1)).map (fun pq => pq.1.1 * pq.2.2 - pq.2.1 * pq.1.2)).sum := by
  unfold shoelaceSum
  rw [zip_rotate_eq_range pts (fun p q => p.1 * q.2 - q.1 * p.2)]

/-- C8: for every Shape2D with at least three points, the hydraulic
diameter is 0 whenever the perimeter is 0 and otherwise equals 4 times
the area divided by the perimeter, where the area is the shoelace area of
the ordered point list and the perimeter is the sum of the Euclidean edge
lengths around the closed loop, wrap-around edge included. -/
theorem C8_hydraulic_diameter (s : Shape2D) (h3 : 3 ≤ s.pts.length) :
    s.get_area = specShoelaceArea s.pts ∧
    s.get_perimeter = specPerimeter s.pts ∧
    (s.get_perimeter = 0 → s.get_hydraulic_diameter = 0) ∧
    (s.get_perimeter ≠ 0 →
      s.get_hydraulic_diameter = 4 * (s.get_area : ℝ) / s.get_perimeter) := by
  have hn3 : ¬ s.pts.length < 3 := not_lt.mpr h3
  have hn2 : ¬ s.pts.length < 2 := not_lt.mpr (le_trans (by norm_num) h3)
  refine ⟨?_, ?_, ?_, ?_⟩
  · rw [Shape2D.get_area, if_neg hn3, specShoelaceArea, shoelaceSum_eq_spec]
    rcases le_or_lt 0 (((s.pts.zip (s.pts.rotate 1)).map
        (fun pq => pq.1.1 * pq.2.2 - pq.2.1 * pq.1.2)).sum) with hpos | hneg
    · rw [ratAbs, if_neg (not_lt.mpr hpos), abs_of_nonneg hpos]
    · rw [ratAbs, if_pos hneg, abs_of_neg hneg]
  · rw [Shape2D.get_perimeter, if_neg hn2, specPerimeter,
      zip_rotate_eq_range s.pts (fun p q =>
        Real.sqrt (((q.1 : ℝ) - (p.1 : ℝ)) ^ 2 + ((q.2 : ℝ) - (p.2 : ℝ)) ^ 2))]
  · intro hp
    rw [Shape2D.get_hydraulic_diameter, if_pos hp]
  · intro hp
    rw [Shape2D.get_hydraulic_diameter, if_neg hp]

/-- C8 witness: the triangle `shape2dEx`. -/
theorem C8_hydraulic_diameter_witness :
    3 ≤ shape2dEx.pts.length ∧
    (shape2dEx.get_area = specShoelaceArea shape2dEx.pts ∧
    shape2dEx.get_perimeter = specPerimeter shape2dEx.pts ∧
    (shape2dEx.get_perimeter = 0 → shape2dEx.get_hydraulic_diameter = 0) ∧
    (shape2dEx.get_perimeter ≠ 0 →
      shape2dEx.get_hydraulic_diameter =
        4 * (shape2dEx.get_area : ℝ) / shape2dEx.get_perimeter)) :=
  ⟨by decide, C8_hydraulic_diameter shape2dEx (by decide)⟩

/-! ## Characterization of the compaction pipeline (claim C10)

Throughout, the hypotheses say that matching within the tolerance
coincides with equality on the pitch values: then `indices` computes
exactly the positions of a value, the groups are runs of equal values,
and the removed turns are added exactly once to a kept section. -/

/-- The positions of value `v` in a list, starting at offset `i`. -/
def posnsFrom (v : ℚ) : List ℚ → Nat → List Nat
  | [], _ => []
  | x :: xs, i => if x = v then i :: posnsFrom v xs (i + 1) else posnsFrom v xs (i + 1)

theorem indicesAux_eq_posns (tol v : ℚ) (l : List ℚ) (i : Nat)
    (hnz : ∀ x ∈ l, x ≠ 0)
    (hiff : ∀ x ∈ l, (ratAbs (1 - v / x) ≤ tol ↔ v = x)) :
    indicesAux tol v l i = .ok (posnsFrom v l i) := by
  induction l generalizing i with
  | nil => rfl
  | cons x xs ih =>
    have hx : x ≠ 0 := hnz x (by simp)
    have hrec := ih (i + 1) (fun y hy => hnz y (List.mem_cons_of_mem _ hy))
      (fun y hy => hiff y (List.mem_cons_of_mem _ hy))
    simp only [indicesAux, if_neg hx, hrec, Bind.bind, Except.bind, posnsFrom]
    by_cases hv : x = v
    · rw [if_pos ((hiff x (by simp)).mpr hv.symm), if_pos hv]
      rfl
    · rw [if_neg (fun hc => hv ((hiff x (by simp)).mp hc).symm), if_neg hv]
      rfl

theorem posnsFrom_ge (v : ℚ) (l : List ℚ) (i : Nat) :
    ∀ j ∈ posnsFrom v l i, i ≤ j := by
  induction l generalizing i with
  | nil => simp [posnsFrom]
  | cons x xs ih =>
    intro j hj
    simp only [posnsFrom] at hj
    split_ifs at hj with hx
    · rcases List.mem_cons.mp hj with rfl | hj
      · exact le_refl j
      · exact le_trans (Nat.le_succ i) (ih (i + 1) j hj)
    · exact le_trans (Nat.le_succ i) (ih (i + 1) j hj)

theorem posnsFrom_lt (v : ℚ) (l : List ℚ) (i : Nat) :
    ∀ j ∈ posnsFrom v l i, j < i + l.length := by
  induction l generalizing i with
  | nil => simp [posnsFrom]
  | cons x xs ih =>
    intro j hj
    simp only [posnsFrom] at hj
    have harith : i + 1 + xs.length = i + (x :: xs).length := by simp; omega
    split_ifs at hj with hx
    · rcases List.mem_cons.mp hj with rfl | hj
      · simp
      · exact harith ▸ ih (i + 1) j hj
    · exact harith ▸ ih (i + 1) j hj

theorem posnsFrom_pairwise (v : ℚ) (l : List ℚ) (i : Nat) :
    (posnsFrom v l i).Pairwise (· < ·) := by
  induction l generalizing i with
  | nil => simp [posnsFrom]
  | cons x xs ih =>
    simp only [posnsFrom]
    split_ifs with hx
    · exact List.Pairwise.cons
        (fun j hj => lt_of_lt_of_le (Nat.lt_succ_self i) (posnsFrom_ge v xs (i + 1) j hj))
        (ih (i + 1))
    · exact ih (i + 1)

theorem posnsFrom_val (v : ℚ) (l : List ℚ) (i : Nat) :
    ∀ j ∈ posnsFrom v l i, l.getD (j - i) 0 = v := by
  induction l generalizing i with
  | nil => simp [posnsFrom]
  | cons x xs ih =>
    intro j hj
    simp only [posnsFrom] at hj
    have step : ∀ hj2 : j ∈ posnsFrom v xs (i + 1), (x :: xs).getD (j - i) 0 = v := by
      intro hj2
      have hge := posnsFrom_ge v xs (i + 1) j hj2
      have := ih (i + 1) j hj2
      have hsub : j - i = (j - (i + 1)) + 1 := by omega
      rw [hsub]
      simpa using this
    split_ifs at hj with hx
    · rcases List.mem_cons.mp hj with rfl | hj2
      · simp [hx]
      · exact step hj2
    · exact step hj

theorem mem_dedupFirst_sub (l : List ℚ) : ∀ v ∈ dedupFirst l, v ∈ l := by
  unfold dedupFirst
  suffices h : ∀ (acc : List ℚ), ∀ v ∈ l.foldl
      (fun acc x => if x ∈ acc then acc else acc ++ [x]) acc, v ∈ acc ∨ v ∈ l by
    intro v hv
    rcases h [] v hv with hc | hc
    · exact absurd hc (List.not_mem_nil v)
    · exact hc
  induction l with
  | nil => intro acc v hv; exact Or.inl hv
  | cons x xs ih =>
    intro acc v hv
    simp only [List.foldl_cons] at hv
    rcases ih _ v hv with hc | hc
    · by_cases hx : x ∈ acc
      · rw [if_pos hx] at hc
        exact Or.inl hc
      · rw [if_neg hx] at hc
        rcases List.mem_append.mp hc with hc | hc
        · exact Or.inl hc
        · simp only [List.mem_singleton] at hc
          exact Or.inr (hc ▸ List.mem_cons_self x xs)
    · exact Or.inr (List.mem_cons_of_mem _ hc)

theorem dedupFirst_nodup (l : List ℚ) : (dedupFirst l).Nodup := by
  unfold dedupFirst
  suffices h : ∀ acc : List ℚ, acc.Nodup →
      (l.foldl (fun acc x => if x ∈ acc then acc else acc ++ [x]) acc).Nodup from
    h [] List.nodup_nil
  induction l with
  | nil => intro acc hacc; exact hacc
  | cons x xs ih =>
    intro acc hacc
    simp only [List.foldl_cons]
    by_cases hx : x ∈ acc
    · rw [if_pos hx]
      exact ih acc hacc
    · rw [if_neg hx]
      refine ih _ ?_
      simpa [List.nodup_append, hacc] using hx

/-- The duplicates dictionary as a pure function: for each distinct
non-zero value with at least two occurrences, its position list. -/
def dupsOf (pitch : List ℚ) : List ℚ → List (ℚ × List Nat)
  | [] => []
  | v :: vs =>
    if v = 0 then dupsOf pitch vs
    else if (posnsFrom v pitch 0).length > 1 then
      (v, posnsFrom v pitch 0) :: dupsOf pitch vs
    else dupsOf pitch vs

theorem computeDuplicates_eq (tol : ℚ) (pitch : List ℚ)
    (hnz : ∀ x ∈ pitch, x ≠ 0)
    (hiff : ∀ x ∈ pitch, ∀ y ∈ pitch, (ratAbs (1 - x / y) ≤ tol ↔ x = y)) :
    computeDuplicates tol pitch = .ok (dupsOf pitch (dedupFirst pitch)) := by
  unfold computeDuplicates
  suffices h : ∀ (vs : List ℚ), (∀ v ∈ vs, v ∈ pitch) →
      ∀ (acc : List (ℚ × List Nat)),
      (vs.foldlM (fun acc v =>
        if v = 0 then pure acc
        else do
          let idxs ← indices tol pitch v
          pure (if idxs.length > 1 then acc ++ [(v, idxs)] else acc)) acc
        : Except String _) = .ok (acc ++ dupsOf pitch vs) by
    simpa using h (dedupFirst pitch) (mem_dedupFirst_sub pitch) []
  intro vs
  induction vs with
  | nil => intro _ acc; simp [dupsOf, pure, Except.pure]
  | cons v vs ih =>
    intro hsub acc
    have hv : v ∈ pitch := hsub v (by simp)
    have hind : indices tol pitch v = .ok (posnsFrom v pitch 0) :=
      indicesAux_eq_posns tol v pitch 0 hnz (fun y hy => hiff v hv y hy)
    have hrec := ih (fun w hw => hsub w (List.mem_cons_of_mem _ hw))
    simp only [List.foldlM, dupsOf]
    by_cases h0 : v = 0
    · simp only [if_pos h0]
      simpa [pure, Except.pure, Bind.bind, Except.bind] using hrec acc
    · simp only [if_neg h0, hind, Bind.bind, Except.bind, pure, Except.pure]
      by_cases hlen : (posnsFrom v pitch 0).length > 1
      · simp only [if_pos hlen]
        simpa [pure, Except.pure] using hrec (acc ++ [(v, posnsFrom v pitch 0)])
      · simp only [if_neg hlen]
        simpa [pure, Except.pure] using hrec acc

theorem dupsOf_sub (pitch : List ℚ) (vs : List ℚ) :
    ∀ e ∈ dupsOf pitch vs, e.1 ∈ vs ∧ e.1 ≠ 0 ∧ e.2 = posnsFrom e.1 pitch 0 := by
  induction vs with
  | nil => simp [dupsOf]
  | cons v vs ih =>
    intro e he
    simp only [dupsOf] at he
    split_ifs at he with h0 hlen
    · obtain ⟨h1, h2, h3⟩ := ih e he
      exact ⟨List.mem_cons_of_mem _ h1, h2, h3⟩
    · rcases List.mem_cons.mp he with rfl | he
      · exact ⟨by simp, h0, rfl⟩
      · obtain ⟨h1, h2, h3⟩ := ih e he
        exact ⟨List.mem_cons_of_mem _ h1, h2, h3⟩
    · obtain ⟨h1, h2, h3⟩ := ih e he
      exact ⟨List.mem_cons_of_mem _ h1, h2, h3⟩

theorem dupsOf_pairwise (pitch : List ℚ) (vs : List ℚ) (h : vs.Nodup) :
    (dupsOf pitch vs).Pairwise (fun a b => a.1 ≠ b.1) := by
  induction vs with
  | nil => simp [dupsOf]
  | cons v vs ih =>
    have hv : v ∉ vs := (List.nodup_cons.mp h).1
    have hrec := ih (List.nodup_cons.mp h).2
    simp only [dupsOf]
    split_ifs with h0 hlen
    · exact hrec
    · refine List.Pairwise.cons ?_ hrec
      intro e he hc
      have h1 := (dupsOf_sub pitch vs e he).1
      exact hv (show v ∈ vs by rw [show v = e.1 from hc]; exact h1)
    · exact hrec

/-! ## Runs: splitting an index list into maximal consecutive runs -/

theorem splitRuns_join (l : List Nat) : (splitRuns l).flatten = l := by
  induction l with
  | nil => rfl
  | cons i rest ih =>
    cases rest with
    | nil => rfl
    | cons j rest2 =>
      simp only [splitRuns]
      cases hs : splitRuns (j :: rest2) with
      | nil => rw [hs] at ih; simp at ih
      | cons g gs =>
        rw [hs] at ih
        simp only [List.flatten_cons] at ih
        by_cases hj : j = i + 1
        · simp only [if_pos hj, List.flatten_cons, List.cons_append]
          rw [ih]
        · simp only [if_neg hj, List.flatten_cons]
          simp [ih]

theorem splitRuns_ne_nil (l : List Nat) : ∀ g ∈ splitRuns l, g ≠ [] := by
  induction l with
  | nil => simp [splitRuns]
  | cons i rest ih =>
    cases rest with
    | nil =>
      intro g hg
      simp only [splitRuns, List.mem_singleton] at hg
      simp [hg]
    | cons j rest2 =>
      intro g hg
      simp only [splitRuns] at hg
      cases hs : splitRuns (j :: rest2) with
      | nil =>
        rw [hs] at hg
        simp only [List.mem_singleton] at hg
        simp [hg]
      | cons g0 gs =>
        rw [hs] at hg
        split_ifs at hg with hj
        · rcases List.mem_cons.mp hg with rfl | hg
          · simp
          · exact ih g (hs ▸ List.mem_cons_of_mem _ hg)
        · rcases List.mem_cons.mp hg with rfl | hg
          · simp
          · exact ih g (hs ▸ hg)

/-- A valid ModelAxi (equal-length, non-negative lists) on which `compact`
does not conserve the total number of turns: with tolerance 1/2 the
relative-closeness relation is not transitive, the overlapping duplicate
groups for values 3/2, 1 and 1/2 each claim index 1 or 2, and the turns
at those indices are added into group heads and then also removed. -/
def mAxiC10cex : ModelAxi := ⟨"m", 0, [1, 1, 1], [3/2, 1, 1/2]⟩

theorem applyGroupAdds_inner_length (k : Nat) (turns : List ℚ) :
    ∀ (tl : List Nat) (cur : List ℚ),
      (tl.foldl (fun cur idx => cur.set k (cur.getD k 0 + turns.getD idx 0)) cur).length
        = cur.length := by
  intro tl
  induction tl with
  | nil => intro cur; rfl
  | cons i tl ih =>
    intro cur
    simp only [List.foldl_cons]
    rw [ih]
    exact List.length_set cur k _

theorem applyGroupAdds_length (turns : List ℚ) (si : List (Nat × List Nat)) :
    (applyGroupAdds turns si).length = turns.length := by
  unfold applyGroupAdds
  suffices h : ∀ (si : List (Nat × List Nat)) (cur : List ℚ),
      (si.foldl (fun cur kg =>
        kg.2.tail.foldl (fun cur idx => cur.set kg.1 (cur.getD kg.1 0 + turns.getD idx 0)) cur)
        cur).length = cur.length from h si turns
  intro si
  induction si with
  | nil => intro cur; rfl
  | cons kg si ih =>
    intro cur
    simp only [List.foldl_cons]
    rw [ih]
    exact applyGroupAdds_inner_length kg.1 turns kg.2.tail cur

theorem enumFrom_filter_length_congr {α β : Type} (R : List Nat) :
    ∀ (l1 : List α) (l2 : List β) (n : Nat), l1.length = l2.length →
      ((l1.enumFrom n).filter (fun p => decide (¬ p.1 ∈ R))).length
        = ((l2.enumFrom n).filter (fun p => decide (¬ p.1 ∈ R))).length := by
  intro l1
  induction l1 with
  | nil =>
    intro l2 n h
    cases l2 with
    | nil => rfl
    | cons b l2 => simp at h
  | cons a l1 ih =>
    intro l2 n h
    cases l2 with
    | nil => simp at h
    | cons b l2 =>
      simp only [List.length_cons, Nat.succ.injEq] at h
      simp only [List.enumFrom, List.filter]
      by_cases hn : n ∈ R
      · simp only [hn, not_true_eq_false, decide_False]
        exact ih l2 (n + 1) h
      · simp only [hn, not_false_eq_true, decide_True, List.length_cons]
        rw [ih l2 (n + 1) h]

/-- C10 counterexample: on the valid model `mAxiC10cex` (equal-length
lists of non-negative values) with tolerance 1/2, `compact` succeeds but
the returned turns sum to 2 while the original turns sum to 3: the
relative-closeness relation at this tolerance is not transitive, the
overlapping duplicate groups for the three pitch values both add a turn
into a group head and mark the contributing index for removal, so turns
are lost. -/
theorem C10_counterexample :
    mAxiC10cex.turns.length = mAxiC10cex.pitch.length ∧
    (∀ x ∈ mAxiC10cex.turns, 0 ≤ x) ∧ (∀ x ∈ mAxiC10cex.pitch, 0 ≤ x) ∧
    mAxiC10cex.compact (1/2) = .ok ([2], [3/2]) ∧
    ¬ ([(2 : ℚ)].sum = mAxiC10cex.turns.sum) := by
  refine ⟨rfl, ?_, ?_, ?_, ?_⟩
  · intro x hx
    simp only [mAxiC10cex, List.mem_cons, List.not_mem_nil, or_false] at hx
    rcases hx with rfl | rfl | rfl <;> norm_num
  · intro x hx
    simp only [mAxiC10cex, List.mem_cons, List.not_mem_nil, or_false] at hx
    rcases hx with rfl | rfl | rfl <;> norm_num
  · norm_num [mAxiC10cex, ModelAxi.compact, computeDuplicates, dedupFirst, indices, indicesAux,
      computeSumIndex, splitRuns, insertReplace, applyGroupAdds, ratAbs,
      Bind.bind, Except.bind, pure, Except.pure, List.foldlM, List.enum, List.enumFrom]
    exact ⟨List.cons_ne_nil _ _, List.cons_ne_nil _ _⟩
  · norm_num [mAxiC10cex]

theorem keep_drop_sum (R : List Nat) :
    ∀ (l : List ℚ) (n : Nat),
      (((l.enumFrom n).filter (fun p => decide (¬ p.1 ∈ R))).map (fun p => p.2)).sum
        + (((l.enumFrom n).filter (fun p => decide (p.1 ∈ R))).map (fun p => p.2)).sum
        = l.sum := by
  intro l
  induction l with
  | nil => intro n; simp
  | cons x l ih =>
    intro n
    simp only [List.enumFrom, List.filter, List.sum_cons]
    by_cases hn : n ∈ R
    · simp only [hn, not_true_eq_false, decide_False, decide_True, List.map_cons, List.sum_cons]
      rw [← ih (n + 1)]; ring
    · simp only [hn, not_false_eq_true, decide_True, decide_False, List.map_cons, List.sum_cons]
      rw [← ih (n + 1)]; ring

theorem drop_sum_eq_getD :
    ∀ (l : List ℚ) (R : List Nat) (n : Nat), R.Nodup →
      (∀ i ∈ R, n ≤ i ∧ i < n + l.length) →
      (((l.enumFrom n).filter (fun p => decide (p.1 ∈ R))).map (fun p => p.2)).sum
        = (R.map (fun i => l.getD (i - n) 0)).sum := by
  intro l
  induction l with
  | nil =>
    intro R n hR hb
    cases R with
    | nil => simp
    | cons i R =>
      have h1 := (hb i (by simp)).1
      have h2 := (hb i (by simp)).2
      simp only [List.length_nil, Nat.add_zero] at h2
      omega
  | cons x l ih =>
    intro R n hR hb
    have hmapc : ∀ (S : List Nat), (∀ i ∈ S, n + 1 ≤ i) →
        (S.map (fun i => (x :: l).getD (i - n) 0)).sum
          = (S.map (fun i => l.getD (i - (n + 1)) 0)).sum := by
      intro S hS
      refine congrArg List.sum (List.map_congr_left ?_)
      intro i hi
      have h1 : i - n = (i - (n + 1)) + 1 := by have := hS i hi; omega
      rw [h1, List.getD_cons_succ]
    simp only [List.enumFrom, List.filter]
    by_cases hn : n ∈ R
    · simp only [hn, decide_True, List.map_cons, List.sum_cons]
      have hfc : (l.enumFrom (n + 1)).filter (fun p => decide (p.1 ∈ R))
          = (l.enumFrom (n + 1)).filter (fun p => decide (p.1 ∈ R.erase n)) := by
        refine List.filter_congr ?_
        intro p hp
        rcases p with ⟨i, y⟩
        have h1 := (List.mem_enumFrom hp).1
        have hne : i ≠ n := by omega
        simp only [decide_eq_decide]
        exact (List.mem_erase_of_ne hne).symm
      rw [hfc, ih (R.erase n) (n + 1) (hR.erase n) ?_]
      · have hsum := List.sum_map_erase (fun i => (x :: l).getD (i - n) 0) hn
        have herase : ∀ i ∈ R.erase n, n + 1 ≤ i := by
          intro i hi
          have hiR := List.mem_of_mem_erase hi
          have hnei : i ≠ n := by
            intro hc
            exact absurd hi (hc ▸ (List.Nodup.not_mem_erase hR))
          have := (hb i hiR).1
          omega
        rw [← hsum]
        simp only [Nat.sub_self, List.getD_cons_zero]
        rw [hmapc (R.erase n) herase]
      · intro i hi
        have hiR := List.mem_of_mem_erase hi
        have hnei : i ≠ n := by
          intro hc
          exact absurd hi (hc ▸ (List.Nodup.not_mem_erase hR))
        have h1 := (hb i hiR).1
        have h2 := (hb i hiR).2
        simp only [List.length_cons] at h2
        constructor <;> omega
    · simp only [hn, decide_False]
      have herase : ∀ i ∈ R, n + 1 ≤ i := by
        intro i hi
        have h1 := (hb i hi).1
        have : i ≠ n := fun hc => hn (hc ▸ hi)
        omega
      rw [ih R (n + 1) hR ?_, hmapc R herase]
      intro i hi
      have h2 := (hb i hi).2
      simp only [List.length_cons] at h2
      exact ⟨herase i hi, by omega⟩

theorem sum_set_add (δ : ℚ) :
    ∀ (l : List ℚ) (k : Nat), k < l.length →
      (l.set k (l.getD k 0 + δ)).sum = l.sum + δ := by
  intro l
  induction l with
  | nil => intro k hk; simp at hk
  | cons x l ih =>
    intro k hk
    cases k with
    | zero =>
      simp only [List.getD_cons_zero, List.set, List.sum_cons]
      ring
    | succ k =>
      simp only [List.getD_cons_succ, List.set_cons_succ, List.sum_cons]
      rw [ih k (by simpa using hk)]
      ring

theorem inner_fold_sum (turns : List ℚ) (k : Nat) :
    ∀ (tl : List Nat) (cur : List ℚ), k < cur.length →
      (tl.foldl (fun cur idx => cur.set k (cur.getD k 0 + turns.getD idx 0)) cur).sum
        = cur.sum + (tl.map (fun i => turns.getD i 0)).sum := by
  intro tl
  induction tl with
  | nil => intro cur hk; simp
  | cons i tl ih =>
    intro cur hk
    simp only [List.foldl_cons, List.map_cons, List.sum_cons]
    rw [ih _ (by rw [List.length_set]; exact hk), sum_set_add _ cur k hk]
    ring

theorem applyGroupAdds_sum (turns : List ℚ) :
    ∀ (si : List (Nat × List Nat)) (cur : List ℚ), cur.length = turns.length →
      (∀ kg ∈ si, kg.1 < turns.length) →
      (si.foldl (fun cur kg =>
        kg.2.tail.foldl (fun cur idx => cur.set kg.1 (cur.getD kg.1 0 + turns.getD idx 0)) cur)
        cur).sum
        = cur.sum + (si.map (fun kg => (kg.2.tail.map (fun i => turns.getD i 0)).sum)).sum := by
  intro si
  induction si with
  | nil => intro cur h1 h2; simp
  | cons kg si ih =>
    intro cur h1 h2
    simp only [List.foldl_cons, List.map_cons, List.sum_cons]
    have hlen2 : (kg.2.tail.foldl
        (fun cur idx => cur.set kg.1 (cur.getD kg.1 0 + turns.getD idx 0)) cur).length
        = turns.length := by
      rw [applyGroupAdds_inner_length]; exact h1
    rw [ih _ hlen2 (fun kg' h => h2 kg' (List.mem_cons_of_mem _ h)),
      inner_fold_sum turns kg.1 kg.2.tail cur (h1 ▸ h2 kg (by simp))]
    ring

theorem getD_set_ne (l : List ℚ) (k j : Nat) (a : ℚ) (h : k ≠ j) :
    (l.set k a).getD j 0 = l.getD j 0 := by
  rw [List.getD_eq_getElem?_getD, List.getD_eq_getElem?_getD, List.getElem?_set_ne h]

theorem inner_fold_getD (turns : List ℚ) (k j : Nat) (h : k ≠ j) :
    ∀ (tl : List Nat) (cur : List ℚ),
      (tl.foldl (fun cur idx => cur.set k (cur.getD k 0 + turns.getD idx 0)) cur).getD j 0
        = cur.getD j 0 := by
  intro tl
  induction tl with
  | nil => intro cur; rfl
  | cons i tl ih =>
    intro cur
    simp only [List.foldl_cons]
    rw [ih, getD_set_ne _ _ _ _ h]

theorem applyGroupAdds_getD_untouched (turns : List ℚ) (j : Nat) :
    ∀ (si : List (Nat × List Nat)) (cur : List ℚ), (∀ kg ∈ si, kg.1 ≠ j) →
      (si.foldl (fun cur kg =>
        kg.2.tail.foldl (fun cur idx => cur.set kg.1 (cur.getD kg.1 0 + turns.getD idx 0)) cur)
        cur).getD j 0 = cur.getD j 0 := by
  intro si
  induction si with
  | nil => intro cur _; rfl
  | cons kg si ih =>
    intro cur h
    simp only [List.foldl_cons]
    rw [ih _ (fun kg' hk => h kg' (List.mem_cons_of_mem _ hk)),
      inner_fold_getD turns kg.1 j (h kg (by simp))]

theorem foldl_append_eq_flatMap {α β : Type} (f : α → List β) :
    ∀ (l : List α) (acc : List β),
      l.foldl (fun acc a => acc ++ f a) acc = acc ++ l.flatMap f := by
  intro l
  induction l with
  | nil => intro acc; simp
  | cons a l ih =>
    intro acc
    simp only [List.foldl_cons, List.flatMap_cons]
    rw [ih]
    simp [List.append_assoc]

theorem flatMap_tail_sublist (G : List (List Nat)) :
    (G.flatMap (fun g => g.tail)).Sublist (G.flatMap id) := by
  induction G with
  | nil => simp
  | cons g G ih =>
    simp only [List.flatMap_cons, id]
    exact List.Sublist.append (List.tail_sublist g) ih

theorem dups_positions_nodup (pitch : List ℚ) :
    ∀ (dups : List (ℚ × List Nat)),
      (∀ e ∈ dups, e.2 = posnsFrom e.1 pitch 0) →
      dups.Pairwise (fun a b => a.1 ≠ b.1) →
      (dups.flatMap (fun e => e.2)).Nodup := by
  intro dups
  induction dups with
  | nil => intro _ _; simp
  | cons e dups ih =>
    intro hsub hpw
    simp only [List.flatMap_cons, List.nodup_append]
    refine ⟨?_, ih (fun e' h => hsub e' (List.mem_cons_of_mem _ h)) (List.Pairwise.sublist
      (List.sublist_cons_self e dups) hpw), ?_⟩
    · rw [hsub e (by simp)]
      exact (posnsFrom_pairwise e.1 pitch 0).imp (fun h => Nat.ne_of_lt h)
    · intro j hj hj2
      rw [hsub e (by simp)] at hj
      have hv1 : pitch.getD j 0 = e.1 := by
        have := posnsFrom_val e.1 pitch 0 j hj
        simpa using this
      rcases List.mem_flatMap.mp hj2 with ⟨e', he', hje'⟩
      rw [hsub e' (List.mem_cons_of_mem _ he')] at hje'
      have hv2 : pitch.getD j 0 = e'.1 := by
        have := posnsFrom_val e'.1 pitch 0 j hje'
        simpa using this
      have hne : e.1 ≠ e'.1 := (List.pairwise_cons.mp hpw).1 e' he'
      exact hne (hv1 ▸ hv2 ▸ rfl)

theorem headD_mem (g : List Nat) (h : g ≠ []) : g.headD 0 ∈ g := by
  cases g with
  | nil => exact absurd rfl h
  | cons k tl => simp

theorem head_not_in_tails :
    ∀ (G : List (List Nat)), (∀ g ∈ G, g ≠ []) → (G.flatMap id).Nodup →
      ∀ g ∈ G, ¬ g.headD 0 ∈ G.flatMap (fun g => g.tail) := by
  intro G
  induction G with
  | nil => simp
  | cons g0 G ih =>
    intro hne hnd g hg
    simp only [List.flatMap_cons, id] at hnd
    rw [List.nodup_append] at hnd
    obtain ⟨hnd0, hndG, hdisj⟩ := hnd
    simp only [List.flatMap_cons, List.mem_append]
    rcases List.mem_cons.mp hg with rfl | hgG
    · have hmem : g.headD 0 ∈ g := headD_mem g (hne g (by simp))
      refine fun hc => ?_
      rcases hc with hc | hc
      · cases hg2 : g with
        | nil => exact hne g (by simp) hg2
        | cons k tl =>
          rw [hg2] at hc hnd0 hmem
          simp only [List.headD_cons, List.tail_cons] at hc hmem
          exact (List.nodup_cons.mp hnd0).1 hc
      · have : g.headD 0 ∈ G.flatMap id :=
          (flatMap_tail_sublist G).mem hc
        exact hdisj hmem this
    · have hmem : g.headD 0 ∈ G.flatMap id :=
        List.mem_flatMap.mpr ⟨g, hgG, headD_mem g (hne g (List.mem_cons_of_mem _ hgG))⟩
      refine fun hc => ?_
      rcases hc with hc | hc
      · exact hdisj ((List.tail_sublist g0).mem hc) hmem
      · exact ih (fun g' h => hne g' (List.mem_cons_of_mem _ h)) hndG g hgG hc

theorem insertReplace_fresh (m : List (Nat × List Nat)) (k : Nat) (v : List Nat)
    (h : ∀ kv ∈ m, kv.1 ≠ k) : insertReplace m k v = m ++ [(k, v)] := by
  have hany : m.any (fun kv => decide (kv.1 = k)) = false := by
    rw [List.any_eq_false]
    intro kv hkv
    simpa using h kv hkv
  simp [insertReplace, hany]

theorem computeSumIndex_eq_foldG (dups : List (ℚ × List Nat)) :
    computeSumIndex dups
      = (dups.flatMap (fun e => splitRuns e.2)).foldl
          (fun m g => match g with | [] => m | k :: _ => insertReplace m k g) [] := by
  unfold computeSumIndex
  suffices h : ∀ (ds : List (ℚ × List Nat)) (m0 : List (Nat × List Nat)),
      ds.foldl (fun m vd =>
        (splitRuns vd.2).foldl (fun m g =>
          match g with | [] => m | k :: _ => insertReplace m k g) m) m0
        = (ds.flatMap (fun e => splitRuns e.2)).foldl
            (fun m g => match g with | [] => m | k :: _ => insertReplace m k g) m0 from
    h dups []
  intro ds
  induction ds with
  | nil => intro m0; rfl
  | cons e ds ih =>
    intro m0
    simp only [List.foldl_cons, List.flatMap_cons, List.foldl_append]
    exact ih _

theorem foldG_eq_map :
    ∀ (G : List (List Nat)) (m0 : List (Nat × List Nat)),
      (∀ g ∈ G, g ≠ []) →
      (∀ kv ∈ m0, ∀ g ∈ G, ¬ kv.1 ∈ g) →
      (G.flatMap id).Nodup →
      G.foldl (fun m g => match g with | [] => m | k :: _ => insertReplace m k g) m0
        = m0 ++ G.map (fun g => (g.headD 0, g)) := by
  intro G
  induction G with
  | nil => intro m0 _ _ _; simp
  | cons g G ih =>
    intro m0 hne hfresh hnd
    cases hg : g with
    | nil => exact absurd hg (hne g (by simp))
    | cons k tl =>
      simp only [List.foldl_cons, hg]
      have hins : insertReplace m0 k (k :: tl) = m0 ++ [(k, k :: tl)] := by
        refine insertReplace_fresh m0 k (k :: tl) ?_
        intro kv hkv hc
        exact hfresh kv hkv g (by simp) (by rw [hg, hc]; simp)
      rw [hins]
      simp only [List.flatMap_cons, id] at hnd
      rw [List.nodup_append] at hnd
      obtain ⟨hnd0, hndG, hdisj⟩ := hnd
      rw [ih (m0 ++ [(k, k :: tl)]) (fun g' h => hne g' (List.mem_cons_of_mem _ h)) ?_ hndG]
      · simp [hg]
      · intro kv hkv g' hg' hc
        rcases List.mem_append.mp hkv with hold | hnew
        · exact hfresh kv hold g' (List.mem_cons_of_mem _ hg') hc
        · simp only [List.mem_singleton] at hnew
          rw [hnew] at hc
          simp only at hc
          have hkg : k ∈ g := by rw [hg]; simp
          exact hdisj hkg (List.mem_flatMap.mpr ⟨g', hg', hc⟩)


theorem flatMap_splitRuns (D : List (ℚ × List Nat)) :
    (D.flatMap (fun e => splitRuns e.2)).flatMap id = D.flatMap (fun e => e.2) := by
  induction D with
  | nil => rfl
  | cons e D ih =>
    simp only [List.flatMap_cons, List.flatMap_append]
    rw [ih, List.flatMap_id, splitRuns_join]

theorem sum_flatMap_eq {α : Type} (f : α → List ℚ) (l : List α) :
    (l.flatMap f).sum = (l.map (fun a => (f a).sum)).sum := by
  rw [List.flatMap_def, List.sum_flatten, List.map_map]
  rfl

theorem compact_ok_of_dups (m : ModelAxi) (tol : ℚ) (D : List (ℚ × List Nat))
    (hne : ¬(m.turns = [] ∨ m.pitch = []))
    (hD : computeDuplicates tol m.pitch = .ok D) :
    m.compact tol = .ok
      ((((applyGroupAdds m.turns (computeSumIndex D)).enum.filter
          (fun p => ¬ p.1 ∈ (computeSumIndex D).foldl (fun acc kg => acc ++ kg.2.tail) [])).map
            (fun p => p.2)),
       ((m.pitch.enum.filter
          (fun p => ¬ p.1 ∈ (computeSumIndex D).foldl (fun acc kg => acc ++ kg.2.tail) [])).map
            (fun p => p.2))) := by
  simp only [ModelAxi.compact, if_neg hne, hD, Bind.bind, Except.bind, pure, Except.pure]

theorem compact_sum_of_exact (m : ModelAxi) (tol : ℚ)
    (hlen : m.turns.length = m.pitch.length)
    (hne : ¬(m.turns = [] ∨ m.pitch = []))
    (hnz : ∀ x ∈ m.pitch, x ≠ 0)
    (hiff : ∀ x ∈ m.pitch, ∀ y ∈ m.pitch, (ratAbs (1 - x / y) ≤ tol ↔ x = y)) :
    ∃ nt np, m.compact tol = .ok (nt, np) ∧ nt.sum = m.turns.sum := by
  have hD : computeDuplicates tol m.pitch
      = .ok (dupsOf m.pitch (dedupFirst m.pitch)) := computeDuplicates_eq tol m.pitch hnz hiff
  set D := dupsOf m.pitch (dedupFirst m.pitch) with hDdef
  set G := D.flatMap (fun e => splitRuns e.2) with hGdef
  have hGne : ∀ g ∈ G, g ≠ [] := by
    intro g hg
    rcases List.mem_flatMap.mp hg with ⟨e, _, hge⟩
    exact splitRuns_ne_nil _ g hge
  have hDsub : ∀ e ∈ D, e.2 = posnsFrom e.1 m.pitch 0 :=
    fun e he => (dupsOf_sub m.pitch (dedupFirst m.pitch) e he).2.2
  have hDpw : D.Pairwise (fun a b => a.1 ≠ b.1) :=
    dupsOf_pairwise m.pitch (dedupFirst m.pitch) (dedupFirst_nodup m.pitch)
  have hDnodup : (D.flatMap (fun e => e.2)).Nodup :=
    dups_positions_nodup m.pitch D hDsub hDpw
  have hGid : G.flatMap id = D.flatMap (fun e => e.2) := flatMap_splitRuns D
  have hGnodup : (G.flatMap id).Nodup := by rw [hGid]; exact hDnodup
  have hsi : computeSumIndex D = G.map (fun g => (g.headD 0, g)) := by
    rw [computeSumIndex_eq_foldG, ← hGdef,
      foldG_eq_map G [] hGne (by intro kv hkv; simp at hkv) hGnodup]
    simp
  set si := computeSumIndex D with hsidef
  set R := si.foldl (fun acc kg => acc ++ kg.2.tail) [] with hRdef
  have hR : R = G.flatMap (fun g => g.tail) := by
    rw [hRdef, foldl_append_eq_flatMap, List.nil_append, hsi, List.flatMap_map]
  have hRnodup : R.Nodup := by
    rw [hR]
    exact List.Nodup.sublist (flatMap_tail_sublist G) hGnodup
  have hmemb : ∀ j, j ∈ G.flatMap id → j < m.pitch.length := by
    intro j hj
    rw [hGid] at hj
    rcases List.mem_flatMap.mp hj with ⟨e, he, hje⟩
    rw [hDsub e he] at hje
    have := posnsFrom_lt e.1 m.pitch 0 j hje
    simpa using this
  have hkeys : ∀ kg ∈ si, kg.1 < m.turns.length := by
    intro kg hkg
    rw [hsi] at hkg
    rcases List.mem_map.mp hkg with ⟨g, hg, hkg2⟩
    have h1 : kg.1 ∈ g := by rw [← hkg2]; exact headD_mem g (hGne g hg)
    have h2 : kg.1 ∈ G.flatMap id := List.mem_flatMap.mpr ⟨g, hg, h1⟩
    rw [hlen]
    exact hmemb kg.1 h2
  have hkeyR : ∀ kg ∈ si, ¬ kg.1 ∈ R := by
    intro kg hkg
    rw [hsi] at hkg
    rcases List.mem_map.mp hkg with ⟨g, hg, hkg2⟩
    rw [hR, ← hkg2]
    exact head_not_in_tails G hGne hGnodup g hg
  set T := applyGroupAdds m.turns si with hTdef
  have hTlen : T.length = m.turns.length := applyGroupAdds_length m.turns si
  have hTsum : T.sum = m.turns.sum
      + (si.map (fun kg => (kg.2.tail.map (fun i => m.turns.getD i 0)).sum)).sum := by
    rw [hTdef]
    unfold applyGroupAdds
    exact applyGroupAdds_sum m.turns si m.turns rfl hkeys
  have hbounds : ∀ i ∈ R, 0 ≤ i ∧ i < 0 + T.length := by
    intro i hi
    refine ⟨Nat.zero_le i, ?_⟩
    rw [hTlen, hlen, Nat.zero_add]
    refine hmemb i ?_
    rw [hR] at hi
    exact (flatMap_tail_sublist G).subset hi
  have hpart := keep_drop_sum R T 0
  have hdrop : (((T.enumFrom 0).filter (fun p => decide (p.1 ∈ R))).map (fun p => p.2)).sum
      = (R.map (fun i => T.getD (i - 0) 0)).sum := drop_sum_eq_getD T R 0 hRnodup hbounds
  have hdrop2 : (R.map (fun i => T.getD (i - 0) 0)).sum
      = (R.map (fun i => m.turns.getD i 0)).sum := by
    refine congrArg List.sum (List.map_congr_left ?_)
    intro i hi
    rw [Nat.sub_zero, hTdef]
    unfold applyGroupAdds
    refine applyGroupAdds_getD_untouched m.turns i si m.turns ?_
    intro kg hkg hc
    exact hkeyR kg hkg (hc ▸ hi)
  have hdrop3 : (R.map (fun i => m.turns.getD i 0)).sum
      = (si.map (fun kg => (kg.2.tail.map (fun i => m.turns.getD i 0)).sum)).sum := by
    rw [hR, List.map_flatMap, sum_flatMap_eq, hsi, List.map_map]
    rfl
  have hkeep : (((T.enumFrom 0).filter (fun p => decide (¬ p.1 ∈ R))).map (fun p => p.2)).sum
      = m.turns.sum := by linarith [hpart, hdrop, hdrop2, hdrop3, hTsum]
  refine ⟨_, _, compact_ok_of_dups m tol D hne hD, ?_⟩
  exact hkeep

/-- C10 (amended): for every ModelAxi whose turns and pitch lists have
equal length, any successful `compact` call returns lists of equal
length; and when every pitch entry is non-zero and the relative
tolerance test is exact (two pitch entries match within tolerance
exactly when they are equal), `compact` succeeds and the returned turns
list sums to the original total.  The original claim's unconditional sum
conservation fails (see the counterexample): with a coarse tolerance the
closeness relation is not transitive, overlapping duplicate groups both
add a turn into a group head and remove its index, and turns are lost;
a zero pitch entry even raises ZeroDivisionError. -/
theorem C10_compact_conserves (m : ModelAxi) (tol : ℚ)
    (hlen : m.turns.length = m.pitch.length) :
    (∀ nt np, m.compact tol = .ok (nt, np) → nt.length = np.length)
    ∧ ((∀ x ∈ m.pitch, x ≠ 0) →
       (∀ x ∈ m.pitch, ∀ y ∈ m.pitch, (ratAbs (1 - x / y) ≤ tol ↔ x = y)) →
       ∃ nt np, m.compact tol = .ok (nt, np) ∧ nt.sum = m.turns.sum) := by
  constructor
  · intro nt np h
    by_cases hc : m.turns = [] ∨ m.pitch = []
    · simp only [ModelAxi.compact, if_pos hc] at h
      obtain ⟨h1, h2⟩ := Prod.mk.inj (Except.ok.inj h)
      rw [← h1, ← h2]
    · cases hd : computeDuplicates tol m.pitch with
      | error e =>
        simp only [ModelAxi.compact, if_neg hc, hd, Bind.bind, Except.bind] at h
        exact absurd h (by simp)
      | ok D =>
        have hok := compact_ok_of_dups m tol D hc hd
        rw [hok] at h
        obtain ⟨h1, h2⟩ := Prod.mk.inj (Except.ok.inj h)
        have hlen2 : (applyGroupAdds m.turns (computeSumIndex D)).length = m.pitch.length := by
          rw [applyGroupAdds_length]; exact hlen
        rw [← h1, ← h2]
        simp only [List.length_map]
        exact enumFrom_filter_length_congr _
          (applyGroupAdds m.turns (computeSumIndex D)) m.pitch 0 hlen2
  · intro hnz hiff
    by_cases hc : m.turns = [] ∨ m.pitch = []
    · have hT : m.turns = [] := by
        rcases hc with h | h
        · exact h
        · rw [h] at hlen
          exact List.eq_nil_of_length_eq_zero (by simpa using hlen)
      refine ⟨[], [], ?_, ?_⟩
      · simp [ModelAxi.compact, hc]
      · rw [hT]
    · exact compact_sum_of_exact m tol hlen hc hnz hiff

/-- Witness for C10: the equal-length hypothesis holds for the concrete
model `modelaxiEx` with `turns = [2, 3, 4]`, `pitch = [1, 1, 2]`, and the
theorem applies to it at the default tolerance. -/
theorem C10_compact_conserves_witness :
    modelaxiEx.turns.length = modelaxiEx.pitch.length ∧
    ((∀ nt np, modelaxiEx.compact defaultCompactTol = .ok (nt, np) → nt.length = np.length)
     ∧ ((∀ x ∈ modelaxiEx.pitch, x ≠ 0) →
        (∀ x ∈ modelaxiEx.pitch, ∀ y ∈ modelaxiEx.pitch,
          (ratAbs (1 - x / y) ≤ defaultCompactTol ↔ x = y)) →
        ∃ nt np, modelaxiEx.compact defaultCompactTol = .ok (nt, np)
          ∧ nt.sum = modelaxiEx.turns.sum)) :=
  ⟨rfl, C10_compact_conserves modelaxiEx defaultCompactTol rfl⟩
